import Mathlib

/-!
# Verification of the rusty-hermit network executor core

Shallow embedding of `src/hermit-sys/src/net/executor.rs` and
`src/hermit-sys/src/net/socket/waker.rs`, together with theorems checking
the natural-language specification against the code.

External collaborators that are part of the repository but whose source is
not included here (`crate::net::waker::WakerRegistration`, the
`hermit_abi::net::event::EventFlags` constants, the `crate::net::nic` lock
interface) are modelled from the spec, with a doc comment saying so.
-/

namespace RustyHermit

/-! ## EventFlags

Modelled from the spec: `hermit_abi::net::event::EventFlags` is a flag word
(`u32` newtype in the ABI crate, which is not among the provided sources); the
spec speaks of a "none" value and of "readable" / "remote-closed" bits.  We
model the word as a `Nat` and pick distinct single bits for the named flags;
nothing below depends on the concrete bit positions. -/

namespace EventFlags

def NONE : Nat := 0

def READABLE : Nat := 1

def WRITABLE : Nat := 2

def RCLOSED : Nat := 4

def WCLOSED : Nat := 8

end EventFlags

/-! ## WakerRegistration

Modelled from the spec: `crate::net::waker::WakerRegistration` (not among the
provided sources) holds at most one registered waker; registration overwrites
("last intent wins"), and `wake()` invokes the registered waker if any and is
a safe no-op otherwise (§3, §4.6, §9 of the spec). -/

structure WakerRegistration (W : Type) where
  waker : Option W
deriving DecidableEq

def WakerRegistration.new (W : Type) : WakerRegistration W := ⟨none⟩

def WakerRegistration.register {W : Type} (_r : WakerRegistration W) (w : W) :
    WakerRegistration W := ⟨some w⟩

/-- `wake()`: invoke the registered waker if any (returned as the list of
wakers actually invoked); a no-op when the slot is empty. -/
def WakerRegistration.wake {W : Type} (r : WakerRegistration W) :
    WakerRegistration W × List W :=
  (r, r.waker.toList)

/-! ## AsyncWakerSocket (`src/hermit-sys/src/net/socket/waker.rs`)

The socket operations are instrumented with an event list recording, in
order, which waker slot had its `wake()` method called (`.call`) and which
registered wakers were thereby invoked (`.fired`). -/

inductive Dir : Type
  | send
  | recv
deriving DecidableEq

inductive SockEvt (W : Type) : Type
  | call (d : Dir)
  | fired (d : Dir) (w : W)
deriving DecidableEq

structure AsyncWakerSocket (W : Type) where
  event_flags : Nat
  send_waker : WakerRegistration W
  recv_waker : WakerRegistration W
deriving DecidableEq

namespace AsyncWakerSocket

variable {W : Type}

/-- `AsyncWakerSocket::new`: empty waker slots, `event_flags = NONE`. -/
def new : AsyncWakerSocket W :=
  { event_flags := EventFlags.NONE
    send_waker := WakerRegistration.new W
    recv_waker := WakerRegistration.new W }

/-- `register_exclusive_send_waker`: overwrite the send slot. -/
def register_exclusive_send_waker (s : AsyncWakerSocket W) (w : W) :
    AsyncWakerSocket W :=
  { s with send_waker := s.send_waker.register w }

/-- `register_exclusive_recv_waker`: overwrite the recv slot. -/
def register_exclusive_recv_waker (s : AsyncWakerSocket W) (w : W) :
    AsyncWakerSocket W :=
  { s with recv_waker := s.recv_waker.register w }

/-- `get_event_flags`: `self.event_flags.swap(EventFlags::NONE, SeqCst)` —
returns the previous word, leaving `NONE` stored. -/
def get_event_flags (s : AsyncWakerSocket W) : Nat × AsyncWakerSocket W :=
  (s.event_flags, { s with event_flags := EventFlags.NONE })

/-- `fn wake_send(&mut self) { self.send_waker.wake(); }` -/
def wake_send (s : AsyncWakerSocket W) : AsyncWakerSocket W × List (SockEvt W) :=
  let (r, ws) := s.send_waker.wake
  ({ s with send_waker := r }, SockEvt.call Dir.send :: ws.map (SockEvt.fired Dir.send))

/-- `fn wake_recv(&mut self) { self.recv_waker.wake(); }` -/
def wake_recv (s : AsyncWakerSocket W) : AsyncWakerSocket W × List (SockEvt W) :=
  let (r, ws) := s.recv_waker.wake
  ({ s with recv_waker := r }, SockEvt.call Dir.recv :: ws.map (SockEvt.fired Dir.recv))

/-- The inherent `pub(crate) fn close`: `self.wake_send(); self.wake_recv();`. -/
def close (s : AsyncWakerSocket W) : AsyncWakerSocket W × List (SockEvt W) :=
  let (s1, e1) := s.wake_send
  let (s2, e2) := s1.wake_recv
  (s2, e1 ++ e2)

/-- The `Socket` trait impl `fn close(&mut self) {}` — a no-op. -/
def socketTraitClose (s : AsyncWakerSocket W) : AsyncWakerSocket W × List (SockEvt W) :=
  (s, [])

/-- `send_event`: two `if` branches, both testing
`event_flags.0 & (RCLOSED | READABLE) != NONE` and both calling `wake_recv`,
then `self.event_flags.store(event_flags.0, SeqCst)`. -/
def send_event (s : AsyncWakerSocket W) (event_flags : Nat) :
    AsyncWakerSocket W × List (SockEvt W) :=
  let (s1, e1) :=
    if event_flags.land (EventFlags.RCLOSED.lor EventFlags.READABLE) ≠ EventFlags.NONE then
      s.wake_recv
    else (s, [])
  let (s2, e2) :=
    if event_flags.land (EventFlags.RCLOSED.lor EventFlags.READABLE) ≠ EventFlags.NONE then
      s1.wake_recv
    else (s1, [])
  ({ s2 with event_flags := event_flags }, e1 ++ e2)

end AsyncWakerSocket

/-! ## ThreadNotify (`executor.rs`, lines 116–168)

State of the two atomic flags; `wake` additionally reports whether the
underlying `sys_wakeup_task` syscall was issued. -/

structure ThreadNotify where
  woken : Bool
  unparked : Bool
deriving DecidableEq

namespace ThreadNotify

/-- `ThreadNotify::new`: both flags start false. -/
def new : ThreadNotify := ⟨false, false⟩

def was_woken (s : ThreadNotify) : Bool := s.woken

def was_unparked (s : ThreadNotify) : Bool := s.unparked

/-- `reset_unparked`: store `false` into `unparked`. -/
def reset_unparked (s : ThreadNotify) : ThreadNotify := { s with unparked := false }

/-- `reset`: store `false` into both flags. -/
def reset (_s : ThreadNotify) : ThreadNotify := ⟨false, false⟩

/-- `wake_by_ref`: store `woken := true`, swap `unparked` to `true`; the
returned Bool is true exactly when `sys_wakeup_task` is issued, i.e. when
the swap read `false`. -/
def wake (s : ThreadNotify) : ThreadNotify × Bool :=
  let s1 : ThreadNotify := { s with woken := true }
  let prev := s1.unparked
  ({ s1 with unparked := true }, !prev)

/-- Number of kernel wakeups issued by one `wake` call (0 or 1). -/
def wakeSyscalls (s : ThreadNotify) : Nat :=
  if (wake s).2 then 1 else 0

end ThreadNotify

/-! ## Executor run loop (`executor.rs`, lines 85–114)

The queue (`QUEUE : ConcurrentQueue<Runnable>`) is a FIFO list of abstract
tasks `τ`; the driver (`crate::net::nic`, whose stack internals are external
collaborators per §1/§6 of the spec) is an abstract state `ν` with the
interface `poll`, `was_woken`, `poll_delay`.  Running a task may consume the
queue tail and driver state and produce new ones (wakers may push new tasks
and touch sockets); stepping the driver may also schedule tasks by waking
futures, returned as a list appended to the queue.

The `nic::lock()` guard is modelled from the spec (its module is not among
the provided sources): `lock()` acquires the driver's lock, and a guard
consumed or dropped by the end of a `with(...)` statement releases it — in
`run` each `guard.take().unwrap().with(...)` temporary dies at the end of
its statement, while `guard.as_mut().unwrap().with(...)` keeps it held.
The trace records lock transitions and task runs so the lock discipline can
be stated. -/

inductive ExecEvt : Type
  | lockAcquire
  | lockRelease
  | runTask
  | pollStep
deriving DecidableEq

structure ExecEnv (τ ν : Type) where
  runTask : τ → List τ × ν → List τ × ν
  poll : ν → Nat → ν × List τ
  was_woken : ν → Bool
  poll_delay : ν → Nat → Option Nat

/-- `fn execute_all() { while let Ok(runnable) = QUEUE.pop() { runnable.run() } }`
with explicit fuel (a task may reschedule itself forever). -/
def execute_all {τ ν : Type} (E : ExecEnv τ ν) :
    Nat → List τ × ν → (List τ × ν) × List ExecEvt
  | 0, s => (s, [])
  | fuel + 1, (q, n) =>
    match q with
    | [] => (([], n), [])
    | t :: rest =>
      let s1 := E.runTask t (rest, n)
      let (s2, evts) := execute_all E fuel s1
      (s2, ExecEvt.runTask :: evts)

namespace Executor

/-- The `loop - break` of `Executor::run` (lines 93–103) plus the epilogue
(lines 104–106).  Entered with the driver lock held (acquired on line 92 or
re-acquired on line 98); `none` as first component means loop fuel ran out. -/
def runFromLoop {τ ν : Type} (E : ExecEnv τ ν) (now : Nat) (eaFuel : Nat) :
    Nat → List τ × ν → Option (Option Nat) × (List τ × ν) × List ExecEvt
  | 0, s => (none, s, [])
  | fuel + 1, (q, n) =>
    let (n1, newTasks) := E.poll n now
    let ((q2, n2), evts) := execute_all E eaFuel (q ++ newTasks, n1)
    if E.was_woken n2 then
      let (r, s3, evts3) := runFromLoop E now eaFuel fuel (q2, n2)
      (r, s3, ExecEvt.pollStep :: ExecEvt.lockRelease :: (evts ++ ExecEvt.lockAcquire :: evts3))
    else
      let d := E.poll_delay n2 now
      let ((q3, n3), evts4) := execute_all E eaFuel (q2, n2)
      (some d, (q3, n3),
        ExecEvt.pollStep :: ExecEvt.lockRelease ::
          (evts ++ ExecEvt.lockAcquire :: ExecEvt.lockRelease :: evts4))

/-- `Executor::run` (lines 88–107): drain, lock, loop until the driver
reports no further progress, read `poll_delay` at the captured time, drain. -/
def run {τ ν : Type} (E : ExecEnv τ ν) (now : Nat) (eaFuel loopFuel : Nat)
    (s : List τ × ν) : Option (Option Nat) × (List τ × ν) × List ExecEvt :=
  let (s1, evts1) := execute_all E eaFuel s
  let (r, s2, evts2) := runFromLoop E now eaFuel loopFuel s1
  (r, s2, evts1 ++ ExecEvt.lockAcquire :: evts2)

end Executor

/-- Driver-lock accounting over a trace. -/
def updateHeld (held : Bool) : ExecEvt → Bool
  | ExecEvt.lockAcquire => true
  | ExecEvt.lockRelease => false
  | _ => held

/-- `noTaskHeldB held tr` holds when, replaying `tr` from lock state `held`,
every `runTask` event happens while the driver lock is not held. -/
def noTaskHeldB : Bool → List ExecEvt → Bool
  | _, [] => true
  | held, e :: rest =>
    (match e with
      | ExecEvt.runTask => !held
      | _ => true) && noTaskHeldB (updateHeld held e) rest

theorem noTaskHeldB_append (h : Bool) (a b : List ExecEvt) :
    noTaskHeldB h (a ++ b) =
      (noTaskHeldB h a && noTaskHeldB (a.foldl updateHeld h) b) := by
  induction a generalizing h with
  | nil => simp [noTaskHeldB]
  | cons e rest ih =>
    simp [noTaskHeldB, ih, Bool.and_assoc]

theorem execute_all_trace_replicate {τ ν : Type} (E : ExecEnv τ ν)
    (fuel : Nat) (s : List τ × ν) :
    ∃ k, (execute_all E fuel s).2 = List.replicate k ExecEvt.runTask := by
  induction fuel generalizing s with
  | zero => exact ⟨0, rfl⟩
  | succ fuel ih =>
    obtain ⟨q, n⟩ := s
    match q with
    | [] => exact ⟨0, rfl⟩
    | t :: rest =>
      obtain ⟨k, hk⟩ := ih (E.runTask t (rest, n))
      exact ⟨k + 1, by simp [execute_all, hk, List.replicate_succ]⟩

theorem foldl_updateHeld_replicate (h : Bool) (k : Nat) :
    (List.replicate k ExecEvt.runTask).foldl updateHeld h = h := by
  induction k with
  | zero => rfl
  | succ k ih => simp [List.replicate_succ, updateHeld, ih]

theorem noTaskHeldB_replicate_false (k : Nat) :
    noTaskHeldB false (List.replicate k ExecEvt.runTask) = true := by
  induction k with
  | zero => rfl
  | succ k ih => simp [List.replicate_succ, noTaskHeldB, updateHeld, ih]

theorem runFromLoop_noTaskHeld {τ ν : Type} (E : ExecEnv τ ν) (now eaFuel : Nat)
    (fuel : Nat) (s : List τ × ν) :
    noTaskHeldB true (Executor.runFromLoop E now eaFuel fuel s).2.2 = true := by
  induction fuel generalizing s with
  | zero => rfl
  | succ fuel ih =>
    obtain ⟨q, n⟩ := s
    obtain ⟨k, hk⟩ :=
      execute_all_trace_replicate E eaFuel (q ++ (E.poll n now).2, (E.poll n now).1)
    by_cases hw : E.was_woken (execute_all E eaFuel
        (q ++ (E.poll n now).2, (E.poll n now).1)).1.2
    · have := ih (execute_all E eaFuel (q ++ (E.poll n now).2, (E.poll n now).1)).1
      simp [Executor.runFromLoop, hw, noTaskHeldB, updateHeld, hk,
        noTaskHeldB_append, foldl_updateHeld_replicate,
        noTaskHeldB_replicate_false, this]
    · obtain ⟨k2, hk2⟩ :=
        execute_all_trace_replicate E eaFuel
          (execute_all E eaFuel (q ++ (E.poll n now).2, (E.poll n now).1)).1
      simp [Executor.runFromLoop, hw, noTaskHeldB, updateHeld, hk, hk2,
        noTaskHeldB_append, foldl_updateHeld_replicate,
        noTaskHeldB_replicate_false]

theorem execute_all_nil {τ ν : Type} (E : ExecEnv τ ν) (fuel : Nat) (n : ν) :
    execute_all E fuel ([], n) = (([], n), []) := by
  cases fuel <;> rfl

/-- A concrete quiescent environment: no tasks, a driver that counts its
steps, never reports progress, and recommends `state + time` as delay. -/
def quiescentEnv : ExecEnv Unit Nat where
  runTask := fun _ s => s
  poll := fun n _ => (n + 1, [])
  was_woken := fun _ => false
  poll_delay := fun n t => some (n + t)

/-! ## PollingGuard world (`executor.rs`, lines 30–69)

The observable world the guard acts on: the kernel polling-mode flag, the
interrupt-enable flag, and a counter of `Executor::run` invocations.  The
executor lock held by the guard is not observable by these claims and is
left implicit. -/

structure PGWorld where
  polling : Bool
  irq : Bool
  runCount : Nat
deriving DecidableEq

namespace PGWorld

/-- `sys_irq_disable()`: returns whether interrupts were enabled, then
disables them. -/
def sys_irq_disable (w : PGWorld) : Bool × PGWorld := (w.irq, { w with irq := false })

def sys_irq_enable (w : PGWorld) : PGWorld := { w with irq := true }

def sys_set_network_polling_mode (b : Bool) (w : PGWorld) : PGWorld :=
  { w with polling := b }

/-- Effect of one `Executor::run` call on this world: bump the counter. -/
def execRun (w : PGWorld) : PGWorld := { w with runCount := w.runCount + 1 }

/-- `PollingGuard::new`: set polling mode true (then take the executor lock). -/
def pgNew (w : PGWorld) : PGWorld := sys_set_network_polling_mode true w

/-- `PollingGuard::yield_now`: drop the lock, polling off, `sys_yield`,
re-lock, run the executor once, polling back on. -/
def pgYieldNow (w : PGWorld) : PGWorld :=
  sys_set_network_polling_mode true (execRun (sys_set_network_polling_mode false w))

/-- `impl Drop for PollingGuard`: query-and-disable interrupts, polling off,
one final executor run, then re-enable interrupts only if they were enabled
on entry to `drop`. -/
def pgDrop (w : PGWorld) : PGWorld :=
  let (irq, w1) := sys_irq_disable w
  let w2 := sys_set_network_polling_mode false w1
  let w3 := execRun w2
  if irq then sys_irq_enable w3 else w3

/-- Operations a holder of the guard can perform between `new` and `drop`. -/
inductive PGOp : Type
  | yieldNow
  | run
deriving DecidableEq

def applyOp (w : PGWorld) : PGOp → PGWorld
  | PGOp.yieldNow => pgYieldNow w
  | PGOp.run => execRun w

def applyOps (w : PGWorld) : List PGOp → PGWorld
  | [] => w
  | op :: rest => applyOps (applyOp w op) rest

theorem applyOps_irq (w : PGWorld) (ops : List PGOp) :
    (applyOps w ops).irq = w.irq := by
  induction ops generalizing w with
  | nil => rfl
  | cons op rest ih =>
    cases op <;>
      simp [applyOps, applyOp, pgYieldNow, execRun, sys_set_network_polling_mode, ih]

theorem applyOps_runCount (w : PGWorld) (ops : List PGOp) :
    w.runCount ≤ (applyOps w ops).runCount := by
  induction ops generalizing w with
  | nil => exact Nat.le_refl _
  | cons op rest ih =>
    refine Nat.le_trans ?_ (ih (applyOp w op))
    cases op <;>
      simp [applyOp, pgYieldNow, execRun, sys_set_network_polling_mode]

end PGWorld

/-! ## io::Error (`hermit_abi::io`)

Only the timeout error is constructed here:
`io::Error::new(io::ErrorKind::TimedOut, &"executor timed out")`. -/

inductive ErrorKind : Type
  | timedOut
deriving DecidableEq

structure IoError where
  kind : ErrorKind
  msg : String
deriving DecidableEq

def timeoutError : IoError := ⟨ErrorKind.timedOut, "executor timed out"⟩

/-! ## block_on (`executor.rs`, lines 190–254)

`block_on` drives one future on the calling thread.  Its collaborators —
the future's `poll`, the executor runs (`polling.executor().run()`), and the
clock — are oracles consumed in program order: the `k`-th `Instant::now()`
reads `nows k`, the `k`-th future poll returns `pollRes k` (`none` =
`Pending`), the `k`-th executor-run call reports `runDelay k` (the returned
`Option<Duration>` in whole milliseconds) and wakes this thread's
`ThreadNotify` (through `wake_by_ref`) exactly when `runWake k` is true.
The kernel block calls themselves do not change the modelled flags; any
wakeup is observed through a later run, like every other wake source.

The trace records, in program order: future polls, the timeout check (the
`now` it read and the `woken` flag at that moment), executor runs with the
delay they reported, the kernel block syscall
(`sysBlock (some d) _ _ _ _` = `sys_block_current_task_with_timeout(d)`,
`sysBlock none _ _ _ _` = `sys_block_current_task()`, recording the `now`
and `pending_start` of the iteration and the `woken`/`unparked` flags at
the call), `reset_unparked`, polling-mode toggles and `sys_yield`. -/

structure BOEnv (T : Type) where
  nows : Nat → Nat
  pollRes : Nat → Option T
  runDelay : Nat → Option Nat
  runWake : Nat → Bool

structure BOSt where
  notify : ThreadNotify
  nowIdx : Nat
  runIdx : Nat
  pollIdx : Nat
deriving DecidableEq

inductive BOEvt (T : Type) : Type
  | polled (res : Option T)
  | check (now : Nat) (woken : Bool)
  | run (delay : Option Nat)
  | sysBlock (delay : Option Nat) (now ps : Nat) (woken unparked : Bool)
  | resetUnparked
  | setPolling (b : Bool)
  | sysYield
deriving DecidableEq

def readNow {T : Type} (env : BOEnv T) (st : BOSt) : Nat × BOSt :=
  (env.nows st.nowIdx, { st with nowIdx := st.nowIdx + 1 })

/-- One `polling.executor().run()` call as seen by `block_on`. -/
def doRun {T : Type} (env : BOEnv T) (st : BOSt) : Option Nat × BOSt :=
  (env.runDelay st.runIdx,
    { st with
      notify := if env.runWake st.runIdx then (st.notify.wake).1 else st.notify
      runIdx := st.runIdx + 1 })

def doPoll {T : Type} (env : BOEnv T) (st : BOSt) : Option T × BOSt :=
  (env.pollRes st.pollIdx, { st with pollIdx := st.pollIdx + 1 })

/-- `PollingGuard::yield_now` as called from `block_on` (drop lock, polling
off, `sys_yield`, re-lock, one executor run, polling on). -/
def doYieldNow {T : Type} (env : BOEnv T) (st : BOSt) : BOSt × List (BOEvt T) :=
  let dr := doRun env st
  (dr.2, [BOEvt.setPolling false, BOEvt.sysYield, BOEvt.run dr.1, BOEvt.setPolling true])

/-- `delay.is_none() || delay.unwrap() > 1000` (line 234). -/
def delayCond : Option Nat → Bool
  | none => true
  | some m => decide (1000 < m)

inductive InnerRes : Type
  | fuelOut
  | timedOut
  | woke
deriving DecidableEq

/-- Outcome of one iteration of the inner wait loop: either the loop exits
(`stop` — woken, or the timeout error) or it continues with a new state. -/
inductive StepOut (T : Type) : Type
  | stop (r : InnerRes) (st : BOSt) (evts : List (BOEvt T))
  | cont (st : BOSt) (evts : List (BOEvt T))

/-- The body of the `while !thread_notify.was_woken()` loop of `block_on`
(lines 213–249): read `now`, perform the timeout check, run the executor,
and park the thread when the adaptive threshold is met. -/
def innerStep {T : Type} (env : BOEnv T) (tmo : Option Nat) (start ps : Nat)
    (st : BOSt) : StepOut T :=
  if st.notify.was_woken then StepOut.stop InnerRes.woke st []
  else
    let rn := readNow env st
    let now := rn.1
    let st1 := rn.2
    -- `if let Some(duration) = timeout { if now >= start + duration { return Err(TimedOut) } }`
    let timedOutNow : Bool :=
      match tmo with
      | some duration => decide (start + duration ≤ now)
      | none => false
    if timedOutNow then
      StepOut.stop InnerRes.timedOut st1 [BOEvt.check now st1.notify.woken]
    else
      let dr := doRun env st1
      let delay := dr.1
      let st2 := dr.2
      if ps + 100 ≤ now ∧ st2.notify.was_woken = false ∧ delayCond delay = true then
        if st2.notify.was_unparked = false then
          let st3 := { st2 with notify := st2.notify.reset_unparked }
          let yn := doYieldNow env st3
          let dr2 := doRun env yn.1
          StepOut.cont dr2.2
            (BOEvt.check now st1.notify.woken :: BOEvt.run delay ::
              BOEvt.sysBlock delay now ps st2.notify.woken st2.notify.unparked ::
                BOEvt.resetUnparked :: (yn.2 ++ [BOEvt.run dr2.1]))
        else
          StepOut.cont st2 [BOEvt.check now st1.notify.woken, BOEvt.run delay]
      else
        StepOut.cont st2 [BOEvt.check now st1.notify.woken, BOEvt.run delay]

/-- The `while !thread_notify.was_woken()` loop of `block_on`
(lines 213–249), with `start` the entry time, `ps` the `pending_start` of
the current outer iteration and explicit fuel. -/
def innerLoop {T : Type} (env : BOEnv T) (tmo : Option Nat) (start ps : Nat) :
    Nat → BOSt → InnerRes × BOSt × List (BOEvt T)
  | 0, st => (InnerRes.fuelOut, st, [])
  | fuel + 1, st =>
    match innerStep env tmo start ps st with
    | StepOut.stop r st2 evts => (r, st2, evts)
    | StepOut.cont st2 evts =>
      let r1 := innerLoop env tmo start ps fuel st2
      (r1.1, r1.2.1, evts ++ r1.2.2)

/-- Outcome of one iteration of the outer `loop`: `done` = `block_on`
returns (or inner fuel ran out, result `none`); `again` = the inner loop
observed a wakeup and the outer loop repeats. -/
inductive OuterOut (T : Type) : Type
  | done (r : Option (Except IoError T)) (st : BOSt) (evts : List (BOEvt T))
  | again (st : BOSt) (evts : List (BOEvt T))

/-- The `Pending` branch of the outer loop (lines 210–251): read
`pending_start`, run the executor once, run the inner wait loop, and either
propagate its timeout error, report fuel exhaustion, or go round again. -/
def outerPending {T : Type} (env : BOEnv T) (tmo : Option Nat)
    (start innerFuel : Nat) (st1 : BOSt) : OuterOut T :=
  let rn := readNow env st1
  let ps := rn.1
  let dr := doRun env rn.2
  let r1 := innerLoop env tmo start ps innerFuel dr.2
  match r1.1 with
  | InnerRes.fuelOut =>
    OuterOut.done none r1.2.1 (BOEvt.polled none :: BOEvt.run dr.1 :: r1.2.2)
  | InnerRes.timedOut =>
    OuterOut.done (some (Except.error timeoutError)) r1.2.1
      (BOEvt.polled none :: BOEvt.run dr.1 :: r1.2.2)
  | InnerRes.woke =>
    OuterOut.again r1.2.1 (BOEvt.polled none :: BOEvt.run dr.1 :: r1.2.2)

/-- One iteration of the outer `loop` of `block_on` (lines 202–252): reset
the notify flags, poll the future; on `Ready` return the value, otherwise
take the `Pending` branch. -/
def outerStep {T : Type} (env : BOEnv T) (tmo : Option Nat) (start innerFuel : Nat)
    (st : BOSt) : OuterOut T :=
  let st0 : BOSt := { st with notify := st.notify.reset }
  let pr := doPoll env st0
  match pr.1 with
  | some v => OuterOut.done (some (Except.ok v)) pr.2 [BOEvt.polled (some v)]
  | none => outerPending env tmo start innerFuel pr.2

/-- The outer `loop` of `block_on` (lines 202–252), with explicit fuel;
`none` as first component = fuel ran out while the future was pending. -/
def outerLoop {T : Type} (env : BOEnv T) (tmo : Option Nat) (start : Nat)
    (innerFuel : Nat) : Nat → BOSt → Option (Except IoError T) × BOSt × List (BOEvt T)
  | 0, st => (none, st, [])
  | fuel + 1, st =>
    match outerStep env tmo start innerFuel st with
    | OuterOut.done r st2 evts => (r, st2, evts)
    | OuterOut.again st2 evts =>
      let r2 := outerLoop env tmo start innerFuel fuel st2
      (r2.1, r2.2.1, evts ++ r2.2.2)

/-- `block_on(future, timeout)`: `start = Instant::now()`, acquire the
`PollingGuard` (polling mode on), then the outer loop.  The trace ends at the
`return`; the guard's drop is covered by the `PGWorld` model above. -/
def block_on {T : Type} (env : BOEnv T) (tmo : Option Nat)
    (outerFuel innerFuel : Nat) : Option (Except IoError T) × List (BOEvt T) :=
  let start := env.nows 0
  let st0 : BOSt := { notify := ThreadNotify.new, nowIdx := 1, runIdx := 0, pollIdx := 0 }
  let out := outerLoop env tmo start innerFuel outerFuel st0
  (out.1, BOEvt.setPolling true :: out.2.2)

/-- The event list of an outer-iteration outcome. -/
def outEvts {T : Type} : OuterOut T → List (BOEvt T)
  | OuterOut.done _ _ evts => evts
  | OuterOut.again _ evts => evts

/-! Trace well-formedness around the kernel block call, for C8: every
`sysBlock` event must be immediately preceded by the executor run that
reported the delay it is issued with, and immediately followed by
`reset_unparked`, the `yield_now` sequence, and one more executor run. -/

def isRunWith {T : Type} (dl : Option Nat) : BOEvt T → Bool
  | BOEvt.run dl2 => dl2 == dl
  | _ => false

def isResetUnparked {T : Type} : BOEvt T → Bool
  | BOEvt.resetUnparked => true
  | _ => false

def isSetPolling {T : Type} (b : Bool) : BOEvt T → Bool
  | BOEvt.setPolling b2 => b == b2
  | _ => false

def isSysYield {T : Type} : BOEvt T → Bool
  | BOEvt.sysYield => true
  | _ => false

def isRunEvt {T : Type} : BOEvt T → Bool
  | BOEvt.run _ => true
  | _ => false

/-- The six events that must follow a kernel block call: `reset_unparked`,
the `yield_now` sequence (polling off, `sys_yield`, an executor run, polling
on), and one more executor run. -/
def parkSuffixB {T : Type} (l : List (BOEvt T)) : Bool :=
  match l with
  | e1 :: e2 :: e3 :: e4 :: e5 :: e6 :: _ =>
    isResetUnparked e1 && isSetPolling false e2 && isSysYield e3 && isRunEvt e4 &&
      isSetPolling true e5 && isRunEvt e6
  | _ => false

/-- For a `sysBlock dl …` event: the previous event is the executor run that
reported `dl`, and the six events of `parkSuffixB` follow.  Any other event
is unconstrained. -/
def blockHeadOK {T : Type} (prev : Option (BOEvt T)) (e : BOEvt T)
    (rest : List (BOEvt T)) : Bool :=
  match e with
  | BOEvt.sysBlock dl _ _ _ _ =>
    (match prev with
      | some p => isRunWith dl p
      | none => false) && parkSuffixB rest
  | _ => true

/-- `blockSeqOKB prev tr`: every `sysBlock` in `tr` (with `prev` the event
just before `tr`) satisfies `blockHeadOK`. -/
def blockSeqOKB {T : Type} : Option (BOEvt T) → List (BOEvt T) → Bool
  | _, [] => true
  | prev, e :: rest => blockHeadOK prev e rest && blockSeqOKB (some e) rest

/-- The last event of `l`, or `prev` when `l` is empty. -/
def lastOr {T : Type} (prev : Option (BOEvt T)) : List (BOEvt T) → Option (BOEvt T)
  | [] => prev
  | e :: rest => lastOr (some e) rest

end RustyHermit

namespace RustyHermit

/-- **C2.** With an empty task queue and a driver whose single step schedules
nothing and reports no further progress (`was_woken = false` after the step),
`Executor::run` performs exactly one driver step, leaves the queue empty, and
returns the driver's `poll_delay` at the captured time unchanged — in
particular it returns normally (no panic, no fuel exhaustion) for any fuel. -/
theorem executorRun_empty_quiescent {τ ν : Type} (E : ExecEnv τ ν)
    (now eaFuel loopFuel : Nat) (nic : ν)
    (hpoll : (E.poll nic now).2 = [])
    (hw : E.was_woken (E.poll nic now).1 = false)
    (hfuel : 1 ≤ loopFuel) :
    (Executor.run E now eaFuel loopFuel ([], nic)).1 =
      some (E.poll_delay (E.poll nic now).1 now)
    ∧ (Executor.run E now eaFuel loopFuel ([], nic)).2.2.count ExecEvt.pollStep = 1
    ∧ (Executor.run E now eaFuel loopFuel ([], nic)).2.1 = ([], (E.poll nic now).1) := by
  obtain ⟨fuel, rfl⟩ : ∃ f, loopFuel = f + 1 :=
    ⟨loopFuel - 1, (Nat.succ_pred_eq_of_pos hfuel).symm⟩
  simp [Executor.run, Executor.runFromLoop, execute_all_nil, hpoll, hw,
    List.count_cons, List.count_nil]

/-- Witness for C2 at a concrete quiescent environment. -/
theorem executorRun_empty_quiescent_witness :
    (Executor.run quiescentEnv 5 3 2 ([], 0)).1 = some (some 6)
    ∧ (Executor.run quiescentEnv 5 3 2 ([], 0)).2.2.count ExecEvt.pollStep = 1
    ∧ (Executor.run quiescentEnv 5 3 2 ([], 0)).2.1 = ([], 1) := by
  have h := executorRun_empty_quiescent quiescentEnv 5 3 2 0 rfl rfl (by decide)
  simpa [quiescentEnv] using h

/-- **C9.** In every execution of `Executor::run` the driver's lock is never
held while a queued task runs: replaying the lock-transition trace from the
unlocked state, every `runTask` event occurs with the lock not held. -/
theorem executorRun_lock_never_held_across_task {τ ν : Type} (E : ExecEnv τ ν)
    (now eaFuel loopFuel : Nat) (s : List τ × ν) :
    noTaskHeldB false (Executor.run E now eaFuel loopFuel s).2.2 = true := by
  obtain ⟨k, hk⟩ := execute_all_trace_replicate E eaFuel s
  have hloop := runFromLoop_noTaskHeld E now eaFuel loopFuel (execute_all E eaFuel s).1
  simp [Executor.run, noTaskHeldB_append, hk, noTaskHeldB, updateHeld,
    foldl_updateHeld_replicate, noTaskHeldB_replicate_false, hloop]

theorem innerStep_stop_spec {T : Type} (env : BOEnv T) (tmo : Option Nat)
    (start ps : Nat) (st st2 : BOSt) (r : InnerRes) (evts : List (BOEvt T))
    (h : innerStep env tmo start ps st = StepOut.stop r st2 evts) :
    (r = InnerRes.woke ∧ evts = [])
    ∨ (r = InnerRes.timedOut
        ∧ ∃ now d, tmo = some d ∧ start + d ≤ now ∧ evts = [BOEvt.check now false]) := by
  simp only [innerStep] at h
  split_ifs at h with hw ht hc hu <;>
    try exact StepOut.noConfusion h
  · injection h with h1 h2 h3
    exact Or.inl ⟨h1.symm, h3.symm⟩
  · have hwoken : st.notify.woken = false := by
      simpa [ThreadNotify.was_woken] using hw
    injection h with h1 h2 h3
    simp only [readNow] at h3 ht
    rcases tmo with _ | d
    · simp at ht
    · refine Or.inr ⟨h1.symm, env.nows st.nowIdx, d, rfl, by simpa using ht, ?_⟩
      rw [← h3, hwoken]

theorem innerStep_cont_spec {T : Type} (env : BOEnv T) (tmo : Option Nat)
    (start ps : Nat) (st st2 : BOSt) (evts : List (BOEvt T))
    (h : innerStep env tmo start ps st = StepOut.cont st2 evts) :
    ∃ now delay rest,
      evts = BOEvt.check now false :: BOEvt.run delay :: rest
      ∧ (∀ d, tmo = some d → ¬ (start + d ≤ now))
      ∧ (rest = []
          ∨ (ps + 100 ≤ now ∧ delayCond delay = true
              ∧ ∃ dY dZ, rest = [BOEvt.sysBlock delay now ps false false,
                  BOEvt.resetUnparked, BOEvt.setPolling false, BOEvt.sysYield,
                  BOEvt.run dY, BOEvt.setPolling true, BOEvt.run dZ])) := by
  simp only [innerStep] at h
  split_ifs at h with hw ht hc hu <;>
    try exact StepOut.noConfusion h
  · have hwoken : st.notify.woken = false := by
      simpa [ThreadNotify.was_woken] using hw
    have hnt : ∀ d, tmo = some d → ¬ (start + d ≤ env.nows st.nowIdx) := by
      intro d hd
      rw [hd] at ht
      simpa [readNow] using ht
    injection h with h1 h2
    obtain ⟨hnow, hwk2, hdc⟩ := hc
    simp only [readNow, doRun, ThreadNotify.was_woken,
      ThreadNotify.was_unparked] at h2 hnow hwk2 hdc hu
    refine ⟨env.nows st.nowIdx, env.runDelay st.runIdx, _,
      by rw [← h2, hwoken, hwk2, hu], hnt,
      Or.inr ⟨hnow, hdc, env.runDelay (st.runIdx + 1),
        env.runDelay (st.runIdx + 1 + 1), ?_⟩⟩
    simp [doYieldNow, doRun]
  · have hwoken : st.notify.woken = false := by
      simpa [ThreadNotify.was_woken] using hw
    have hnt : ∀ d, tmo = some d → ¬ (start + d ≤ env.nows st.nowIdx) := by
      intro d hd
      rw [hd] at ht
      simpa [readNow] using ht
    injection h with h1 h2
    simp only [readNow, doRun] at h2
    exact ⟨env.nows st.nowIdx, env.runDelay st.runIdx, [],
      by rw [← h2, hwoken], hnt, Or.inl rfl⟩
  · have hwoken : st.notify.woken = false := by
      simpa [ThreadNotify.was_woken] using hw
    have hnt : ∀ d, tmo = some d → ¬ (start + d ≤ env.nows st.nowIdx) := by
      intro d hd
      rw [hd] at ht
      simpa [readNow] using ht
    injection h with h1 h2
    simp only [readNow, doRun] at h2
    exact ⟨env.nows st.nowIdx, env.runDelay st.runIdx, [],
      by rw [← h2, hwoken], hnt, Or.inl rfl⟩

theorem innerLoop_no_polled {T : Type} (env : BOEnv T) (tmo : Option Nat)
    (start ps : Nat) :
    ∀ fuel st o, BOEvt.polled o ∉ (innerLoop env tmo start ps fuel st).2.2 := by
  intro fuel
  induction fuel with
  | zero =>
    intro st o h
    simp [innerLoop] at h
  | succ fuel ih =>
    intro st o h
    cases hstep : innerStep env tmo start ps st with
    | stop r st2 evts =>
      simp only [innerLoop, hstep] at h
      rcases innerStep_stop_spec _ _ _ _ _ _ _ _ hstep with ⟨_, rfl⟩ | ⟨_, now, d, _, _, rfl⟩ <;>
        simp at h
    | cont st2 evts =>
      simp only [innerLoop, hstep] at h
      obtain ⟨now, delay, rest, rfl, _, hrest⟩ := innerStep_cont_spec _ _ _ _ _ _ _ hstep
      rcases hrest with rfl | ⟨_, _, dY, dZ, rfl⟩ <;>
        simp at h <;>
        exact ih _ _ h

theorem innerLoop_check_false {T : Type} (env : BOEnv T) (tmo : Option Nat)
    (start ps : Nat) :
    ∀ fuel st t w, BOEvt.check t w ∈ (innerLoop env tmo start ps fuel st).2.2 →
      w = false := by
  intro fuel
  induction fuel with
  | zero =>
    intro st t w h
    simp [innerLoop] at h
  | succ fuel ih =>
    intro st t w h
    cases hstep : innerStep env tmo start ps st with
    | stop r st2 evts =>
      simp only [innerLoop, hstep] at h
      rcases innerStep_stop_spec _ _ _ _ _ _ _ _ hstep with ⟨_, rfl⟩ | ⟨_, now, d, _, _, rfl⟩ <;>
        simp at h
      exact h.2
    | cont st2 evts =>
      simp only [innerLoop, hstep] at h
      obtain ⟨now, delay, rest, rfl, _, hrest⟩ := innerStep_cont_spec _ _ _ _ _ _ _ hstep
      rcases hrest with rfl | ⟨_, _, dY, dZ, rfl⟩ <;>
        simp at h <;>
        rcases h with ⟨h1, rfl⟩ | h <;>
        first
          | rfl
          | exact ih _ _ _ h

theorem innerLoop_timedOut_iff {T : Type} (env : BOEnv T) (d : Nat)
    (start ps : Nat) :
    ∀ fuel st,
      (innerLoop env (some d) start ps fuel st).1 = InnerRes.timedOut ↔
        ∃ t w, BOEvt.check t w ∈ (innerLoop env (some d) start ps fuel st).2.2
          ∧ start + d ≤ t := by
  intro fuel
  induction fuel with
  | zero =>
    intro st
    simp [innerLoop]
  | succ fuel ih =>
    intro st
    cases hstep : innerStep env (some d) start ps st with
    | stop r st2 evts =>
      simp only [innerLoop, hstep]
      rcases innerStep_stop_spec _ _ _ _ _ _ _ _ hstep with ⟨rfl, rfl⟩ |
          ⟨rfl, now, d2, hd2, hle, rfl⟩
      · simp
      · obtain rfl : d2 = d := (Option.some.inj hd2).symm
        exact iff_of_true rfl ⟨now, false, List.mem_singleton.mpr rfl, hle⟩
    | cont st2 evts =>
      simp only [innerLoop, hstep]
      obtain ⟨now, delay, rest, rfl, hnt, hrest⟩ := innerStep_cont_spec _ _ _ _ _ _ _ hstep
      have hnow : ¬ (start + d ≤ now) := hnt d rfl
      constructor
      · intro hr
        obtain ⟨t, w, hmem, hle⟩ := (ih _).mp hr
        exact ⟨t, w, by simp [hmem], hle⟩
      · intro hr
        obtain ⟨t, w, hmem, hle⟩ := hr
        rcases hrest with rfl | ⟨_, _, dY, dZ, rfl⟩ <;>
          simp at hmem <;>
          rcases hmem with ⟨rfl, rfl⟩ | hmem <;>
          first
            | exact absurd hle hnow
            | exact (ih _).mpr ⟨t, w, hmem, hle⟩

theorem outerPending_spec {T : Type} (env : BOEnv T) (d start fi : Nat) (st1 : BOSt) :
    (∃ stq evq, outerPending env (some d) start fi st1 = OuterOut.done none stq evq)
    ∨ (∃ stq evq,
        outerPending env (some d) start fi st1 =
          OuterOut.done (some (Except.error timeoutError)) stq evq
        ∧ (∃ t w, BOEvt.check t w ∈ evq ∧ start + d ≤ t)
        ∧ (∀ t w, BOEvt.check t w ∈ evq → w = false)
        ∧ ∀ v : T, BOEvt.polled (some v) ∉ evq)
    ∨ (∃ stq evq,
        outerPending env (some d) start fi st1 = OuterOut.again stq evq
        ∧ (∀ t w, BOEvt.check t w ∈ evq → w = false ∧ ¬ (start + d ≤ t))
        ∧ ∀ v : T, BOEvt.polled (some v) ∉ evq) := by
  have hiff := innerLoop_timedOut_iff env d start (readNow env st1).1 fi
    (doRun env (readNow env st1).2).2
  have hchk := innerLoop_check_false env (some d) start (readNow env st1).1 fi
  have hnp := innerLoop_no_polled env (some d) start (readNow env st1).1 fi
  rcases hinner : innerLoop env (some d) start (readNow env st1).1 fi
      (doRun env (readNow env st1).2).2 with ⟨ir, stq, evq⟩
  simp only [hinner] at hiff
  have hchk2 : ∀ t w, BOEvt.check t w ∈ evq → w = false := by
    intro t w hm
    exact hchk _ t w (by rw [hinner]; exact hm)
  have hnp2 : ∀ v : T, BOEvt.polled (some v) ∉ evq := by
    intro v hm
    exact hnp _ (some v) (by rw [hinner]; exact hm)
  cases ir with
  | fuelOut =>
    exact Or.inl ⟨stq,
      BOEvt.polled none :: BOEvt.run (doRun env (readNow env st1).2).1 :: evq,
      by simp [outerPending, hinner]⟩
  | timedOut =>
    refine Or.inr (Or.inl ⟨stq,
      BOEvt.polled none :: BOEvt.run (doRun env (readNow env st1).2).1 :: evq,
      by simp [outerPending, hinner], ?_, ?_, ?_⟩)
    · obtain ⟨t, w, hm, hle⟩ := hiff.mp rfl
      exact ⟨t, w, List.mem_cons_of_mem _ (List.mem_cons_of_mem _ hm), hle⟩
    · intro t w hm
      rcases hm with _ | ⟨_, hm⟩
      rcases hm with _ | ⟨_, hm⟩
      exact hchk2 t w hm
    · intro v hm
      rcases hm with _ | ⟨_, hm⟩
      rcases hm with _ | ⟨_, hm⟩
      exact hnp2 v hm
  | woke =>
    refine Or.inr (Or.inr ⟨stq,
      BOEvt.polled none :: BOEvt.run (doRun env (readNow env st1).2).1 :: evq,
      by simp [outerPending, hinner], ?_, ?_⟩)
    · intro t w hm
      rcases hm with _ | ⟨_, hm⟩
      rcases hm with _ | ⟨_, hm⟩
      refine ⟨hchk2 t w hm, fun hle => ?_⟩
      have : InnerRes.woke = InnerRes.timedOut := hiff.mpr ⟨t, w, hm, hle⟩
      exact InnerRes.noConfusion this
    · intro v hm
      rcases hm with _ | ⟨_, hm⟩
      rcases hm with _ | ⟨_, hm⟩
      exact hnp2 v hm

theorem outerStep_spec {T : Type} (env : BOEnv T) (d start fi : Nat) (st : BOSt) :
    (∃ v stq, outerStep env (some d) start fi st =
        OuterOut.done (some (Except.ok v)) stq [BOEvt.polled (some v)])
    ∨ (∃ stq evq, outerStep env (some d) start fi st = OuterOut.done none stq evq)
    ∨ (∃ stq evq,
        outerStep env (some d) start fi st =
          OuterOut.done (some (Except.error timeoutError)) stq evq
        ∧ (∃ t w, BOEvt.check t w ∈ evq ∧ start + d ≤ t)
        ∧ (∀ t w, BOEvt.check t w ∈ evq → w = false)
        ∧ ∀ v : T, BOEvt.polled (some v) ∉ evq)
    ∨ (∃ stq evq,
        outerStep env (some d) start fi st = OuterOut.again stq evq
        ∧ (∀ t w, BOEvt.check t w ∈ evq → w = false ∧ ¬ (start + d ≤ t))
        ∧ ∀ v : T, BOEvt.polled (some v) ∉ evq) := by
  cases hpoll : env.pollRes st.pollIdx with
  | some v =>
    exact Or.inl ⟨v, { st with notify := st.notify.reset, pollIdx := st.pollIdx + 1 },
      by simp [outerStep, doPoll, hpoll]⟩
  | none =>
    have hset : outerStep env (some d) start fi st =
        outerPending env (some d) start fi
          (doPoll env { st with notify := st.notify.reset }).2 := by
      simp [outerStep, doPoll, hpoll]
    rw [hset]
    exact Or.inr (outerPending_spec env d start fi _)

theorem outerLoop_spec {T : Type} (env : BOEnv T) (d start fi : Nat) :
    ∀ fuel st r, (outerLoop env (some d) start fi fuel st).1 = some r →
      ((r = Except.error timeoutError ↔
          ∃ t w, BOEvt.check t w ∈ (outerLoop env (some d) start fi fuel st).2.2
            ∧ start + d ≤ t)
        ∧ (∀ t w, BOEvt.check t w ∈ (outerLoop env (some d) start fi fuel st).2.2 →
            w = false)
        ∧ ∀ v, BOEvt.polled (some v) ∈ (outerLoop env (some d) start fi fuel st).2.2 →
            r = Except.ok v) := by
  intro fuel
  induction fuel with
  | zero =>
    intro st r hr
    simp [outerLoop] at hr
  | succ fuel ih =>
    intro st r hr
    rcases outerStep_spec env d start fi st with ⟨v, stq, hstep⟩ | ⟨stq, evq, hstep⟩ |
        ⟨stq, evq, hstep, hex, hchk, hnp⟩ | ⟨stq, evq, hstep, hchk, hnp⟩
    · simp only [outerLoop, hstep] at hr ⊢
      obtain rfl := Option.some.inj hr
      refine ⟨by simp, fun t w hm => by simp at hm, fun v' hm => ?_⟩
      simp at hm
      rw [hm]
    · simp only [outerLoop, hstep] at hr
      exact absurd hr (by simp)
    · simp only [outerLoop, hstep] at hr ⊢
      obtain rfl := Option.some.inj hr
      exact ⟨iff_of_true rfl hex, hchk, fun v hm => absurd hm (hnp v)⟩
    · simp only [outerLoop, hstep] at hr ⊢
      obtain ⟨ih1, ih2, ih3⟩ := ih stq r hr
      refine ⟨⟨?_, ?_⟩, ?_, ?_⟩
      · intro hre
        obtain ⟨t, w, hm, hle⟩ := ih1.mp hre
        exact ⟨t, w, List.mem_append_right _ hm, hle⟩
      · rintro ⟨t, w, hm, hle⟩
        rw [List.mem_append] at hm
        rcases hm with hm | hm
        · exact absurd hle (hchk t w hm).2
        · exact ih1.mpr ⟨t, w, hm, hle⟩
      · intro t w hm
        rw [List.mem_append] at hm
        rcases hm with hm | hm
        · exact (hchk t w hm).1
        · exact ih2 t w hm
      · intro v hm
        rw [List.mem_append] at hm
        rcases hm with hm | hm
        · exact absurd hm (hnp v)
        · exact ih3 v hm

/-- An environment on which `block_on(f, Some(50))` times out: the future is
always pending, the clock advances 100ms per reading, the executor reports no
delay and no wakeup ever arrives. -/
def timeoutEnv : BOEnv Nat :=
  { nows := fun k => 100 * k
    pollRes := fun _ => none
    runDelay := fun _ => none
    runWake := fun _ => false }

/-- **C1.** When `block_on(f, Some(d))` returns (`some r`, i.e. fuel did not
run out), it returns the timeout error exactly when some timeout check read a
time `t ≥ start + d` (the `>=` already-elapsed check, `start = nows 0` the
entry time); every such check happens with no wakeup observed
(`woken = false`) and, being in the pending loop, after a `Pending` poll; and
whenever a poll finds the future `Ready` — even at exactly the deadline
instant — `block_on` returns the future's value, never the timeout error. -/
theorem blockOn_timeout_iff {T : Type} (env : BOEnv T) (d fo fi : Nat)
    (r : Except IoError T) (hr : (block_on env (some d) fo fi).1 = some r) :
    (r = Except.error timeoutError ↔
        ∃ t w, BOEvt.check t w ∈ (block_on env (some d) fo fi).2
          ∧ env.nows 0 + d ≤ t)
    ∧ (∀ t w, BOEvt.check t w ∈ (block_on env (some d) fo fi).2 → w = false)
    ∧ ∀ v, BOEvt.polled (some v) ∈ (block_on env (some d) fo fi).2 →
        r = Except.ok v := by
  have hr2 : (outerLoop env (some d) (env.nows 0) fi fo
      { notify := ThreadNotify.new, nowIdx := 1, runIdx := 0, pollIdx := 0 }).1 =
        some r := by
    simpa [block_on] using hr
  obtain ⟨h1, h2, h3⟩ := outerLoop_spec env d (env.nows 0) fi fo
    { notify := ThreadNotify.new, nowIdx := 1, runIdx := 0, pollIdx := 0 } r hr2
  refine ⟨⟨?_, ?_⟩, ?_, ?_⟩
  · intro hre
    obtain ⟨t, w, hm, hle⟩ := h1.mp hre
    exact ⟨t, w, by simp [block_on, hm], hle⟩
  · rintro ⟨t, w, hm, hle⟩
    simp only [block_on, List.mem_cons] at hm
    rcases hm with hm | hm
    · exact BOEvt.noConfusion hm
    · exact h1.mpr ⟨t, w, hm, hle⟩
  · intro t w hm
    simp only [block_on, List.mem_cons] at hm
    rcases hm with hm | hm
    · exact BOEvt.noConfusion hm
    · exact h2 t w hm
  · intro v hm
    simp only [block_on, List.mem_cons] at hm
    rcases hm with hm | hm
    · exact BOEvt.noConfusion hm
    · exact h3 v hm

/-- Witness for C1: with `timeoutEnv` and `d = 50` the first inner check
reads `t = 200 ≥ 0 + 50` and `block_on` returns the timeout error. -/
theorem blockOn_timeout_iff_witness :
    (block_on timeoutEnv (some 50) 1 1).1 = some (Except.error timeoutError)
    ∧ ∃ t w, BOEvt.check t w ∈ (block_on timeoutEnv (some 50) 1 1).2
        ∧ timeoutEnv.nows 0 + 50 ≤ t :=
  ⟨rfl, (blockOn_timeout_iff timeoutEnv 50 1 1 (Except.error timeoutError) rfl).1.mp rfl⟩

theorem parkSuffixB_append {T : Type} (a b : List (BOEvt T))
    (h : parkSuffixB a = true) : parkSuffixB (a ++ b) = true := by
  rcases a with _ | ⟨e1, _ | ⟨e2, _ | ⟨e3, _ | ⟨e4, _ | ⟨e5, _ | ⟨e6, rest⟩⟩⟩⟩⟩⟩ <;>
    simp_all [parkSuffixB]

theorem blockSeqOKB_append {T : Type} (b : List (BOEvt T)) :
    ∀ (a : List (BOEvt T)) (prev : Option (BOEvt T)),
      blockSeqOKB prev a = true → blockSeqOKB (lastOr prev a) b = true →
      blockSeqOKB prev (a ++ b) = true := by
  intro a
  induction a with
  | nil =>
    intro prev _ hb
    simpa [lastOr] using hb
  | cons e a ih =>
    intro prev ha hb
    rw [List.cons_append]
    simp only [blockSeqOKB, Bool.and_eq_true] at ha ⊢
    refine ⟨?_, ih (some e) ha.2 (by simpa [lastOr] using hb)⟩
    cases e with
    | sysBlock dl n p w u =>
      simp only [blockHeadOK, Bool.and_eq_true] at ha ⊢
      exact ⟨ha.1.1, parkSuffixB_append _ _ ha.1.2⟩
    | polled o => simp [blockHeadOK]
    | check t w => simp [blockHeadOK]
    | run dl => simp [blockHeadOK]
    | resetUnparked => simp [blockHeadOK]
    | setPolling bb => simp [blockHeadOK]
    | sysYield => simp [blockHeadOK]

theorem innerLoop_sysBlock_spec {T : Type} (env : BOEnv T) (tmo : Option Nat)
    (start ps : Nat) :
    ∀ fuel st dl n p w u,
      BOEvt.sysBlock dl n p w u ∈ (innerLoop env tmo start ps fuel st).2.2 →
        p = ps ∧ ps + 100 ≤ n ∧ w = false ∧ u = false ∧ delayCond dl = true := by
  intro fuel
  induction fuel with
  | zero =>
    intro st dl n p w u hm
    simp [innerLoop] at hm
  | succ fuel ih =>
    intro st dl n p w u hm
    cases hstep : innerStep env tmo start ps st with
    | stop r st2 evts =>
      simp only [innerLoop, hstep] at hm
      rcases innerStep_stop_spec _ _ _ _ _ _ _ _ hstep with ⟨_, rfl⟩ | ⟨_, now, dd, _, _, rfl⟩ <;>
        simp at hm
    | cont st2 evts =>
      simp only [innerLoop, hstep] at hm
      obtain ⟨now, delay, rest, rfl, _, hrest⟩ := innerStep_cont_spec _ _ _ _ _ _ _ hstep
      rcases hrest with rfl | ⟨hnow, hdc, dY, dZ, rfl⟩ <;>
        simp at hm
      · exact ih _ _ _ _ _ _ hm
      · rcases hm with ⟨rfl, rfl, rfl, rfl, rfl⟩ | hm
        · exact ⟨rfl, hnow, rfl, rfl, hdc⟩
        · exact ih _ _ _ _ _ _ hm

theorem innerLoop_blockSeq {T : Type} (env : BOEnv T) (tmo : Option Nat)
    (start ps : Nat) :
    ∀ fuel st prev, blockSeqOKB prev (innerLoop env tmo start ps fuel st).2.2 = true := by
  intro fuel
  induction fuel with
  | zero =>
    intro st prev
    simp [innerLoop, blockSeqOKB]
  | succ fuel ih =>
    intro st prev
    cases hstep : innerStep env tmo start ps st with
    | stop r st2 evts =>
      simp only [innerLoop, hstep]
      rcases innerStep_stop_spec _ _ _ _ _ _ _ _ hstep with ⟨_, rfl⟩ | ⟨_, now, dd, _, _, rfl⟩ <;>
        simp [blockSeqOKB, blockHeadOK]
    | cont st2 evts =>
      simp only [innerLoop, hstep]
      obtain ⟨now, delay, rest, rfl, _, hrest⟩ := innerStep_cont_spec _ _ _ _ _ _ _ hstep
      rw [List.cons_append, List.cons_append]
      refine blockSeqOKB_append _ (BOEvt.check now false :: BOEvt.run delay :: rest) prev ?_ ?_
      · rcases hrest with rfl | ⟨hnow, hdc, dY, dZ, rfl⟩ <;>
          simp [blockSeqOKB, blockHeadOK, isRunWith, parkSuffixB, isResetUnparked,
            isSetPolling, isSysYield, isRunEvt]
      · exact ih _ _

theorem outerStep_sysBlock_spec {T : Type} (env : BOEnv T) (tmo : Option Nat)
    (start fi : Nat) (st : BOSt) :
    ∀ dl n p w u, BOEvt.sysBlock dl n p w u ∈ outEvts (outerStep env tmo start fi st) →
      p + 100 ≤ n ∧ w = false ∧ u = false ∧ delayCond dl = true := by
  intro dl n p w u hm
  cases hpoll : env.pollRes st.pollIdx with
  | some v => simp [outerStep, doPoll, hpoll, outEvts] at hm
  | none =>
    have hset : outerStep env tmo start fi st =
        outerPending env tmo start fi
          (doPoll env { st with notify := st.notify.reset }).2 := by
      simp [outerStep, doPoll, hpoll]
    rw [hset] at hm
    revert hm
    generalize (doPoll env { st with notify := st.notify.reset }).2 = st1
    intro hm
    have hsb := innerLoop_sysBlock_spec env tmo start (readNow env st1).1
    rcases hinner : innerLoop env tmo start (readNow env st1).1 fi
        (doRun env (readNow env st1).2).2 with ⟨ir, stq, evq⟩
    cases ir <;>
      · simp [outerPending, hinner, outEvts] at hm
        obtain ⟨hp, hle, hw2, hu2, hdc⟩ := hsb fi _ dl n p w u (by rw [hinner]; exact hm)
        exact ⟨hp ▸ hle, hw2, hu2, hdc⟩

theorem outerStep_blockSeq {T : Type} (env : BOEnv T) (tmo : Option Nat)
    (start fi : Nat) (st : BOSt) :
    ∀ prev, blockSeqOKB prev (outEvts (outerStep env tmo start fi st)) = true := by
  intro prev
  cases hpoll : env.pollRes st.pollIdx with
  | some v => simp [outerStep, doPoll, hpoll, outEvts, blockSeqOKB, blockHeadOK]
  | none =>
    have hset : outerStep env tmo start fi st =
        outerPending env tmo start fi
          (doPoll env { st with notify := st.notify.reset }).2 := by
      simp [outerStep, doPoll, hpoll]
    rw [hset]
    generalize (doPoll env { st with notify := st.notify.reset }).2 = st1
    have hbs := innerLoop_blockSeq env tmo start (readNow env st1).1
    rcases hinner : innerLoop env tmo start (readNow env st1).1 fi
        (doRun env (readNow env st1).2).2 with ⟨ir, stq, evq⟩
    have hev : blockSeqOKB (some (BOEvt.run (doRun env (readNow env st1).2).1)) evq
        = true := by
      have := hbs fi (doRun env (readNow env st1).2).2
        (some (BOEvt.run (doRun env (readNow env st1).2).1))
      rw [hinner] at this
      exact this
    cases ir <;>
      simp [outerPending, hinner, outEvts, blockSeqOKB, blockHeadOK, hev]

theorem outerLoop_sysBlock_spec {T : Type} (env : BOEnv T) (tmo : Option Nat)
    (start fi : Nat) :
    ∀ fuel st dl n p w u,
      BOEvt.sysBlock dl n p w u ∈ (outerLoop env tmo start fi fuel st).2.2 →
        p + 100 ≤ n ∧ w = false ∧ u = false ∧ delayCond dl = true := by
  intro fuel
  induction fuel with
  | zero =>
    intro st dl n p w u hm
    simp [outerLoop] at hm
  | succ fuel ih =>
    intro st dl n p w u hm
    cases hstep : outerStep env tmo start fi st with
    | done r st2 evts =>
      simp only [outerLoop, hstep] at hm
      exact outerStep_sysBlock_spec env tmo start fi st dl n p w u
        (by rw [hstep]; exact hm)
    | again st2 evts =>
      simp only [outerLoop, hstep] at hm
      rw [List.mem_append] at hm
      rcases hm with hm | hm
      · exact outerStep_sysBlock_spec env tmo start fi st dl n p w u
          (by rw [hstep]; exact hm)
      · exact ih _ _ _ _ _ _ hm

theorem outerLoop_blockSeq {T : Type} (env : BOEnv T) (tmo : Option Nat)
    (start fi : Nat) :
    ∀ fuel st prev, blockSeqOKB prev (outerLoop env tmo start fi fuel st).2.2 = true := by
  intro fuel
  induction fuel with
  | zero =>
    intro st prev
    simp [outerLoop, blockSeqOKB]
  | succ fuel ih =>
    intro st prev
    cases hstep : outerStep env tmo start fi st with
    | done r st2 evts =>
      simp only [outerLoop, hstep]
      have := outerStep_blockSeq env tmo start fi st prev
      rw [hstep] at this
      exact this
    | again st2 evts =>
      simp only [outerLoop, hstep]
      refine blockSeqOKB_append _ evts prev ?_ (ih _ _)
      have := outerStep_blockSeq env tmo start fi st prev
      rw [hstep] at this
      exact this

/-- **C8.** In `block_on`'s pending loop the kernel block syscall
(`sysBlock dl now ps woken unparked`, where `dl = some d` stands for
`sys_block_current_task_with_timeout(d)` and `dl = none` for
`sys_block_current_task()`) happens only when the elapsed time since
entering the pending state is at least 100ms (`ps + 100 ≤ now`), the woken
flag is still false, the thread is not in an outstanding-unparked state, and
the executor's recommended delay is absent or exceeds 1000ms
(`delayCond dl`); moreover every such call is immediately preceded by the
executor run that reported exactly that delay and immediately followed by
clearing the unparked debounce, the `yield_now` sequence, and one more
executor run (`blockSeqOKB`). -/
theorem blockOn_park_conditions {T : Type} (env : BOEnv T) (tmo : Option Nat)
    (fo fi : Nat) :
    (∀ dl n p w u, BOEvt.sysBlock dl n p w u ∈ (block_on env tmo fo fi).2 →
        p + 100 ≤ n ∧ w = false ∧ u = false ∧ delayCond dl = true)
    ∧ blockSeqOKB none (block_on env tmo fo fi).2 = true := by
  constructor
  · intro dl n p w u hm
    simp only [block_on, List.mem_cons] at hm
    rcases hm with hm | hm
    · exact BOEvt.noConfusion hm
    · exact outerLoop_sysBlock_spec env tmo (env.nows 0) fi fo _ dl n p w u hm
  · have h := outerLoop_blockSeq env tmo (env.nows 0) fi fo
      { notify := ThreadNotify.new, nowIdx := 1, runIdx := 0, pollIdx := 0 }
      (some (BOEvt.setPolling true))
    simp [block_on, blockSeqOKB, blockHeadOK, h]

/-- **C3.** Two consecutive `wake()` calls with no intervening reset of
`unparked` issue at most one `sys_wakeup_task` syscall and leave
`woken = true`; in general `wake()` sets `woken := true`, leaves
`unparked = true`, and issues the kernel wakeup exactly when `unparked`
was previously false. -/
theorem threadNotify_wake_debounce (s : ThreadNotify) :
    ThreadNotify.wakeSyscalls s + ThreadNotify.wakeSyscalls (ThreadNotify.wake s).1 ≤ 1
    ∧ ((ThreadNotify.wake (ThreadNotify.wake s).1).1).woken = true
    ∧ (ThreadNotify.wake s).1.woken = true
    ∧ (ThreadNotify.wake s).1.unparked = true
    ∧ (ThreadNotify.wake s).2 = !s.unparked := by
  rcases s with ⟨w, u⟩
  cases w <;> cases u <;> simp [ThreadNotify.wake, ThreadNotify.wakeSyscalls]

/-- **C5.** `get_event_flags()` atomically exchanges the stored flag word
with `NONE` and returns the previous value: two consecutive calls with no
intervening `send_event` return the previously stored flags and then `NONE`. -/
theorem get_event_flags_one_shot {W : Type} (s : AsyncWakerSocket W) :
    (s.get_event_flags).1 = s.event_flags
    ∧ ((s.get_event_flags).2.get_event_flags).1 = EventFlags.NONE
    ∧ (s.get_event_flags).2.event_flags = EventFlags.NONE := by
  exact ⟨rfl, rfl, rfl⟩

/-- **C6.** The inherent `close()` calls `wake()` on the send slot and then on
the recv slot exactly once each, invoking exactly the registered wakers; when
neither waker was ever registered the invocation list is empty (a safe no-op). -/
theorem close_wakes_both_once {W : Type} (s : AsyncWakerSocket W) :
    (s.close).2 =
      (SockEvt.call Dir.send :: s.send_waker.waker.toList.map (SockEvt.fired Dir.send))
        ++ (SockEvt.call Dir.recv :: s.recv_waker.waker.toList.map (SockEvt.fired Dir.recv))
    ∧ (s.send_waker.waker = none → s.recv_waker.waker = none →
        (s.close).2 = [SockEvt.call Dir.send, SockEvt.call Dir.recv]) := by
  constructor
  · rfl
  · intro hs hr
    simp [AsyncWakerSocket.close, AsyncWakerSocket.wake_send,
      AsyncWakerSocket.wake_recv, WakerRegistration.wake, hs, hr]

/-- **C7.** `send_event(flags)` calls `wake()` on the recv slot exactly when
the new flags include `RCLOSED` or `READABLE`, and afterwards stores the new
flags as the current word, replacing any unread prior flags. -/
theorem send_event_wakes_recv_iff {W : Type} (s : AsyncWakerSocket W) (flags : Nat) :
    (SockEvt.call Dir.recv ∈ (s.send_event flags).2 ↔
      flags.land (EventFlags.RCLOSED.lor EventFlags.READABLE) ≠ EventFlags.NONE)
    ∧ (s.send_event flags).1.event_flags = flags := by
  by_cases h : flags.land (EventFlags.RCLOSED.lor EventFlags.READABLE) = EventFlags.NONE
  · refine ⟨?_, ?_⟩ <;>
      simp [AsyncWakerSocket.send_event, h]
  · refine ⟨?_, ?_⟩ <;>
      simp [AsyncWakerSocket.send_event, AsyncWakerSocket.wake_recv,
        WakerRegistration.wake, h]

/-- **C10.** `send_event(flags)` never touches the send waker: both branches
test the same readable/remote-closed condition and both call `wake_recv`, so
no `send_event` call ever calls or fires the send slot (only `close()` does). -/
theorem send_event_never_wakes_send {W : Type} (s : AsyncWakerSocket W) (flags : Nat) :
    SockEvt.call Dir.send ∉ (s.send_event flags).2
    ∧ (∀ w : W, SockEvt.fired Dir.send w ∉ (s.send_event flags).2)
    ∧ (s.send_event flags).1.send_waker = s.send_waker
    ∧ SockEvt.call Dir.send ∈ (s.close).2 := by
  by_cases h : flags.land (EventFlags.RCLOSED.lor EventFlags.READABLE) = EventFlags.NONE <;>
    refine ⟨?_, fun w => ?_, ?_, ?_⟩ <;>
      simp [AsyncWakerSocket.send_event, AsyncWakerSocket.wake_recv,
        AsyncWakerSocket.close, AsyncWakerSocket.wake_send,
        WakerRegistration.wake, h]

/-- **C4.** However the guard holder interleaves `yield_now()` and executor
runs between `PollingGuard::new` and the drop, after the drop the polling-mode
flag is off, exactly one further executor run has happened in the drop itself,
and the interrupt flag is back to its value at guard creation. -/
theorem pollingGuard_drop_restores (w : PGWorld) (ops : List PGWorld.PGOp) :
    (PGWorld.pgDrop (PGWorld.applyOps (PGWorld.pgNew w) ops)).polling = false
    ∧ (PGWorld.pgDrop (PGWorld.applyOps (PGWorld.pgNew w) ops)).irq = w.irq
    ∧ (PGWorld.pgDrop (PGWorld.applyOps (PGWorld.pgNew w) ops)).runCount =
        (PGWorld.applyOps (PGWorld.pgNew w) ops).runCount + 1 := by
  have hirq : (PGWorld.applyOps (PGWorld.pgNew w) ops).irq = w.irq := by
    rw [PGWorld.applyOps_irq]
    rfl
  refine ⟨?_, ?_, ?_⟩ <;>
    · rw [PGWorld.pgDrop]
      by_cases h : (PGWorld.applyOps (PGWorld.pgNew w) ops).irq <;>
        simp_all [PGWorld.sys_irq_disable, PGWorld.sys_irq_enable,
          PGWorld.sys_set_network_polling_mode, PGWorld.execRun]

end RustyHermit
